import Mathlib

/-!
Verification of the aztec-prover-stats event scanner.

The scanner retrieves contract log events over an inclusive block range in
fixed-size windows, aggregates them into per-actor statistics (proof
submissions, slashing, withdrawal lifecycle), derives exit eligibility from
block timestamps, and writes a snapshot.  The definitions below are a shallow
embedding of `index.js` (the scanner) into Lean: JS `BigInt` amounts become
`Nat`, JS `number` counters that may go negative become `Int` where the code
subtracts, address-keyed JS objects (which preserve string-key insertion
order) become insertion-ordered association lists, and `Array.prototype.sort`
(stable per ES2019) becomes `List.mergeSort`.
-/

namespace AztecStats

/-- Chunk size for querying events (`const CHUNK_SIZE = 10000`). -/
def CHUNK_SIZE : Nat := 10000

/-- Exit delay in seconds, 14 days (`const EXIT_DELAY_SECONDS = 14 * 24 * 60 * 60`). -/
def EXIT_DELAY_SECONDS : Nat := 14 * 24 * 60 * 60

/-- The window sequence produced by the chunked scan loop
`for (let start = fromBlock; start <= toBlock; start += CHUNK_SIZE)`
with `end = Math.min(start + CHUNK_SIZE - 1, toBlock)`.
Each element is the inclusive window `(start, end)` of one query. -/
def chunkWindows (start toBlock : Nat) : List (Nat × Nat) :=
  if start ≤ toBlock then
    (start, min (start + CHUNK_SIZE - 1) toBlock) :: chunkWindows (start + CHUNK_SIZE) toBlock
  else
    []
termination_by toBlock + 1 - start
decreasing_by simp only [CHUNK_SIZE]; omega

/-- The inclusive range of blocks a window covers. -/
def windowBlocks (w : Nat × Nat) : List Nat :=
  List.range' w.1 (w.2 + 1 - w.1)

theorem chunkWindows_cover (f t : Nat) :
    (chunkWindows f t).flatMap windowBlocks = List.range' f (t + 1 - f) := by
  induction f, t using chunkWindows.induct with
  | case1 f t h ih =>
    rw [chunkWindows, if_pos h, List.flatMap_cons, ih]
    simp only [windowBlocks, CHUNK_SIZE] at *
    rcases le_or_lt (f + 10000) t with h2 | h2
    · rw [min_eq_left (by omega)]
      rw [show t + 1 - (f + 10000) = t + 1 - f - 10000 from by omega]
      rw [show (f + 10000 - 1) + 1 - f = 10000 from by omega]
      rw [List.range'_append_1 f 10000 (t + 1 - f - 10000)]
      congr 1
      omega
    · rw [min_eq_right (by omega)]
      rw [show t + 1 - (f + 10000) = 0 from by omega]
      simp
  | case2 f t h =>
    rw [chunkWindows, if_neg h]
    simp only [List.flatMap_nil]
    rw [show t + 1 - f = 0 from by omega]
    rfl

theorem chunkWindows_mem_bounds (f t : Nat) (w : Nat × Nat)
    (hw : w ∈ chunkWindows f t) : w.1 ≤ w.2 ∧ w.2 + 1 - w.1 ≤ CHUNK_SIZE ∧
      w.2 = min (w.1 + CHUNK_SIZE - 1) t := by
  induction f, t using chunkWindows.induct with
  | case1 f t h ih =>
    rw [chunkWindows, if_pos h] at hw
    rcases List.mem_cons.mp hw with h1 | h1
    · subst h1
      refine ⟨?_, ?_, rfl⟩ <;> simp only [CHUNK_SIZE] <;> omega
    · exact ih h1
  | case2 f t h =>
    rw [chunkWindows, if_neg h] at hw
    simp at hw

theorem chunkWindows_chain (f t : Nat) :
    (chunkWindows f t).Chain' (fun w w2 => w2.1 = w.2 + 1) := by
  induction f, t using chunkWindows.induct with
  | case1 f t h ih =>
    rw [chunkWindows, if_pos h]
    refine List.chain'_cons'.mpr ⟨?_, ih⟩
    intro w2 hw2
    rw [chunkWindows] at hw2
    split at hw2
    · simp only [List.head?_cons, Option.mem_def, Option.some.injEq] at hw2
      subst hw2
      simp only [CHUNK_SIZE] at *
      omega
    · simp at hw2
  | case2 f t h =>
    rw [chunkWindows, if_neg h]
    exact List.chain'_nil

theorem chunkWindows_dropLast_full (f t : Nat) (w : Nat × Nat)
    (hw : w ∈ (chunkWindows f t).dropLast) : w.2 + 1 - w.1 = CHUNK_SIZE := by
  induction f, t using chunkWindows.induct with
  | case1 f t h ih =>
    rw [chunkWindows, if_pos h] at hw
    by_cases hnil : chunkWindows (f + CHUNK_SIZE) t = []
    · rw [hnil] at hw
      simp at hw
    · rw [List.dropLast_cons_of_ne_nil hnil] at hw
      rcases List.mem_cons.mp hw with h1 | h1
      · subst h1
        have : f + CHUNK_SIZE ≤ t := by
          by_contra hc
          rw [chunkWindows, if_neg hc] at hnil
          exact hnil rfl
        simp only [CHUNK_SIZE] at *
        omega
      · exact ih h1
  | case2 f t h =>
    rw [chunkWindows, if_neg h] at hw
    simp at hw

/-! ## Address-keyed aggregation state

All three aggregators use the JS pattern
`if (!stats[k]) stats[k] = init; stats[k].field++ ...` on an object keyed by
address.  JS objects preserve insertion order for (non-numeric) string keys,
and `Object.values`/`Object.keys` iterate in that order, so the object is
modelled as an insertion-ordered list of records with pairwise distinct keys:
an existing record is updated in place, a missing one is appended. -/

section KeyedFold

variable {α : Type} {E : Type}

/-- One `if (!stats[k]) stats[k] = init; stats[k] = f(stats[k])` step. -/
def upsert (key : α → String) (k : String) (init : α) (f : α → α) : List α → List α
  | [] => [f init]
  | r :: rest => if key r == k then f r :: rest else r :: upsert key k init f rest

/-- `stats[k]` on the association-list model. -/
def lookupRec (key : α → String) (k : String) (l : List α) : Option α :=
  l.find? fun r => key r == k

theorem lookupRec_upsert_self (key : α → String) (k : String) (init : α) (f : α → α)
    (hf : ∀ r, key (f r) = key r) (hinit : key init = k) (l : List α) :
    lookupRec key k (upsert key k init f l) = some (f ((lookupRec key k l).getD init)) := by
  induction l with
  | nil => simp [lookupRec, upsert, List.find?_cons, hf, hinit]
  | cons r rest ih =>
    by_cases h : key r = k
    · simp [upsert, lookupRec, List.find?_cons, h, hf]
    · simp only [upsert, if_neg (by simp [h] : ¬((key r == k) = true)), lookupRec] at *
      rw [List.find?_cons_of_neg _ (by simp [h]), List.find?_cons_of_neg _ (by simp [h])]
      exact ih

theorem lookupRec_upsert_other (key : α → String) (k a : String) (init : α) (f : α → α)
    (hf : ∀ r, key (f r) = key r) (hinit : key init = k) (hne : a ≠ k) (l : List α) :
    lookupRec key a (upsert key k init f l) = lookupRec key a l := by
  induction l with
  | nil =>
    simp only [upsert, lookupRec]
    rw [List.find?_cons_of_neg _ (by simp [hf, hinit]; exact fun h => hne h.symm)]
  | cons r rest ih =>
    by_cases h : key r = k
    · simp only [upsert, if_pos (by simp [h] : (key r == k) = true), lookupRec]
      by_cases h2 : key r = a
      · exact absurd (h2.symm.trans h) hne
      · rw [List.find?_cons_of_neg _ (by simp [hf, h2]), List.find?_cons_of_neg _ (by simp [h2])]
    · simp only [upsert, if_neg (by simp [h] : ¬((key r == k) = true)), lookupRec] at *
      by_cases h2 : key r = a
      · rw [List.find?_cons_of_pos _ (by simp [h2]), List.find?_cons_of_pos _ (by simp [h2])]
      · rw [List.find?_cons_of_neg _ (by simp [h2]), List.find?_cons_of_neg _ (by simp [h2])]
        exact ih

/-- `acc.includes(k) ? acc : [...acc, k]`: how the set of object keys grows. -/
def insertIfAbsent (acc : List String) (k : String) : List String :=
  if k ∈ acc then acc else acc ++ [k]

theorem map_key_upsert (key : α → String) (k : String) (init : α) (f : α → α)
    (hf : ∀ r, key (f r) = key r) (hinit : key init = k) (l : List α) :
    (upsert key k init f l).map key = insertIfAbsent (l.map key) k := by
  induction l with
  | nil => simp [upsert, insertIfAbsent, hf, hinit]
  | cons r rest ih =>
    by_cases h : key r = k
    · simp [upsert, insertIfAbsent, h, hf]
    · simp only [upsert, if_neg (by simp [h] : ¬((key r == k) = true)), List.map_cons, ih,
        insertIfAbsent, List.mem_cons]
      by_cases h2 : k ∈ rest.map key
      · rw [if_pos h2, if_pos (Or.inr h2)]
      · rw [if_neg h2, if_neg (by rintro (h3 | h3); exact h (h3.symm); exact h2 h3)]
        simp

theorem mem_insertIfAbsent (acc : List String) (k x : String) :
    x ∈ insertIfAbsent acc k ↔ x ∈ acc ∨ x = k := by
  simp only [insertIfAbsent]
  split
  · rename_i h
    constructor
    · exact fun h2 => Or.inl h2
    · rintro (h2 | h2)
      · exact h2
      · exact h2 ▸ h
  · simp

theorem nodup_insertIfAbsent (acc : List String) (k : String) (h : acc.Nodup) :
    (insertIfAbsent acc k).Nodup := by
  simp only [insertIfAbsent]
  split
  · exact h
  · rename_i h2
    simp [List.nodup_append, h, h2]

end KeyedFold

/-- First-occurrence deduplication: the order `[...new Set(xs)]` produces in JS,
which is also the first-encounter order of object keys. -/
def dedupFirst {α : Type} [DecidableEq α] : List α → List α
  | [] => []
  | x :: xs => x :: dedupFirst (xs.filter fun y => y ≠ x)
termination_by l => l.length
decreasing_by simp only [List.length_cons]; exact Nat.lt_succ_of_le (List.length_filter_le _ _)

theorem foldl_insertIfAbsent_eq (ks : List String) :
    ∀ acc : List String,
      ks.foldl insertIfAbsent acc = acc ++ dedupFirst (ks.filter fun k => k ∉ acc) := by
  induction ks with
  | nil => intro acc; simp [dedupFirst]
  | cons k ks ih =>
    intro acc
    rw [List.foldl_cons, ih]
    by_cases h : k ∈ acc
    · rw [show insertIfAbsent acc k = acc from if_pos h]
      congr 2
      rw [List.filter_cons, if_neg (by simpa using h)]
    · rw [show insertIfAbsent acc k = acc ++ [k] from if_neg h]
      rw [List.filter_cons, if_pos (by simpa using h)]
      rw [dedupFirst, List.filter_filter, List.append_assoc, List.cons_append, List.nil_append]
      congr 3
      apply List.filter_congr
      intro x _
      simp only [List.mem_append, decide_not, List.mem_singleton, Bool.and_comm]
      by_cases hx : x ∈ acc <;> by_cases hxk : x = k <;> simp [hx, hxk]

theorem foldl_insertIfAbsent_nil_eq (ks : List String) :
    ks.foldl insertIfAbsent [] = dedupFirst ks := by
  rw [foldl_insertIfAbsent_eq ks []]
  simp

theorem foldl_insertIfAbsent_nodup (ks : List String) :
    ∀ acc : List String, acc.Nodup → (ks.foldl insertIfAbsent acc).Nodup := by
  induction ks with
  | nil => intro acc h; simpa using h
  | cons k ks ih => intro acc h; exact ih _ (nodup_insertIfAbsent acc k h)

theorem mem_foldl_insertIfAbsent (ks : List String) :
    ∀ (acc : List String) (x : String),
      x ∈ ks.foldl insertIfAbsent acc ↔ x ∈ acc ∨ x ∈ ks := by
  induction ks with
  | nil => intro acc x; simp
  | cons k ks ih =>
    intro acc x
    rw [List.foldl_cons, ih, mem_insertIfAbsent]
    simp only [List.mem_cons]
    tauto

theorem dedupFirst_nodup (ks : List String) : (dedupFirst ks).Nodup := by
  rw [← foldl_insertIfAbsent_nil_eq]
  exact foldl_insertIfAbsent_nodup ks [] List.nodup_nil

theorem mem_dedupFirst (ks : List String) (x : String) : x ∈ dedupFirst ks ↔ x ∈ ks := by
  rw [← foldl_insertIfAbsent_nil_eq, mem_foldl_insertIfAbsent]
  simp

theorem dedupFirst_length_eq_card (ks : List String) :
    (dedupFirst ks).length = ks.toFinset.card := by
  have h1 : (dedupFirst ks).toFinset = ks.toFinset := by
    ext x
    simp [List.mem_toFinset, mem_dedupFirst]
  rw [← h1, List.toFinset_card_of_nodup (dedupFirst_nodup ks)]

section ProcFold

variable {α : Type} {E : Type}
variable (key : α → String) (ekey : E → String) (init : E → α) (upd : E → α → α)

/-- The event-consumption loop shared by the aggregators: for each event,
upsert the record keyed by the event's address. -/
def procFold (evs : List E) (st : List α) : List α :=
  evs.foldl (fun st e => upsert key (ekey e) (init e) (upd e) st) st

/-- What one address's record sees: the same loop restricted to the events
carrying that address. -/
def collect (acc : Option α) (evs : List E) : Option α :=
  evs.foldl (fun acc e => some (upd e (acc.getD (init e)))) acc

theorem collect_some (l : List E) : ∀ acc : α,
    collect init upd (some acc) l = some (l.foldl (fun r e => upd e r) acc) := by
  induction l with
  | nil => intro acc; rfl
  | cons e l ih => intro acc; simpa [collect] using ih (upd e acc)

theorem lookupRec_procFold
    (hupd : ∀ e r, key (upd e r) = key r) (hinit : ∀ e, key (init e) = ekey e)
    (a : String) (evs : List E) :
    ∀ st : List α,
      lookupRec key a (procFold key ekey init upd evs st)
        = collect init upd (lookupRec key a st) (evs.filter fun e => ekey e == a) := by
  induction evs with
  | nil => intro st; rfl
  | cons e evs ih =>
    intro st
    rw [procFold, List.foldl_cons, List.filter_cons]
    by_cases h : ekey e = a
    · rw [if_pos (by simp [h])]
      have h1 := ih (upsert key (ekey e) (init e) (upd e) st)
      rw [procFold] at h1
      subst h
      rw [h1, lookupRec_upsert_self key (ekey e) (init e) (upd e) (hupd e) (hinit e) st]
      rfl
    · rw [if_neg (by simp [h])]
      have h1 := ih (upsert key (ekey e) (init e) (upd e) st)
      rw [procFold] at h1
      rw [h1, lookupRec_upsert_other key (ekey e) a (init e) (upd e)
        (hupd e) (hinit e) (fun hc => h hc.symm) st]

theorem map_key_procFold
    (hupd : ∀ e r, key (upd e r) = key r) (hinit : ∀ e, key (init e) = ekey e)
    (evs : List E) :
    ∀ st : List α,
      (procFold key ekey init upd evs st).map key
        = (evs.map ekey).foldl insertIfAbsent (st.map key) := by
  induction evs with
  | nil => intro st; rfl
  | cons e evs ih =>
    intro st
    rw [procFold, List.foldl_cons, List.map_cons, List.foldl_cons]
    have h1 := ih (upsert key (ekey e) (init e) (upd e) st)
    rw [procFold] at h1
    rw [h1, map_key_upsert key (ekey e) (init e) (upd e) (hupd e) (hinit e) st]

theorem nodup_map_key_procFold
    (hupd : ∀ e r, key (upd e r) = key r) (hinit : ∀ e, key (init e) = ekey e)
    (evs : List E) (st : List α)
    (hst : (st.map key).Nodup) :
    ((procFold key ekey init upd evs st).map key).Nodup := by
  rw [map_key_procFold key ekey init upd hupd hinit evs st]
  exact foldl_insertIfAbsent_nodup _ _ hst

theorem lookupRec_of_mem_nodup (l : List α) (r : α)
    (hr : r ∈ l) (hnd : (l.map key).Nodup) :
    lookupRec key (key r) l = some r := by
  induction l with
  | nil => simp at hr
  | cons a rest ih =>
    rcases List.mem_cons.mp hr with h | h
    · subst h
      simp [lookupRec, List.find?_cons_of_pos]
    · have hne : key a ≠ key r := by
        intro hc
        have : key r ∈ rest.map key := List.mem_map_of_mem key h
        rw [← hc] at this
        exact (List.nodup_cons.mp (by simpa using hnd)).1 this
      rw [lookupRec, List.find?_cons_of_neg _ (by simp [hne])]
      exact ih h (List.nodup_cons.mp (by simpa using hnd)).2

/-- Every record in the aggregation result is the `collect` of the events that
carry its address. -/
theorem mem_procFold_collect
    (hupd : ∀ e r, key (upd e r) = key r) (hinit : ∀ e, key (init e) = ekey e)
    (evs : List E) (r : α)
    (hr : r ∈ procFold key ekey init upd evs []) :
    collect init upd none (evs.filter fun e => ekey e == key r) = some r := by
  have hnd : ((procFold key ekey init upd evs []).map key).Nodup :=
    nodup_map_key_procFold key ekey init upd hupd hinit evs [] (by simp)
  have h1 := lookupRec_of_mem_nodup key _ r hr hnd
  rw [lookupRec_procFold key ekey init upd hupd hinit (key r) evs []] at h1
  simpa [lookupRec] using h1

end ProcFold

/-! ## Proof aggregator (`indexProofEvents`) -/

/-- An `L2ProofVerified` log event: `event.args.blockNumber` (the L2 block),
`event.args.proverId` (an address), `event.transactionHash`,
`event.blockNumber` (the chain block the log sits in). -/
structure ProofEvent where
  l2BlockNumber : Nat
  proverId : String
  txHash : String
  ethBlockNumber : Nat
deriving DecidableEq

/-- One entry of `proverStats[proverId].blocks`.  The JS stores the L2 block
number as its decimal string (`blockNumber.toString()`); it is kept as the
underlying integer here. -/
structure BlockRef where
  blockNumber : Nat
  txHash : String
  ethBlockNumber : Nat
deriving DecidableEq

/-- `proverStats[proverId]`. -/
structure ProverRecord where
  address : String
  proofCount : Nat
  blocks : List BlockRef
deriving DecidableEq

def mkBlockRef (e : ProofEvent) : BlockRef :=
  { blockNumber := e.l2BlockNumber, txHash := e.txHash, ethBlockNumber := e.ethBlockNumber }

/-- `{ address: proverId, proofCount: 0, blocks: [] }`. -/
def emptyProver (addr : String) : ProverRecord :=
  { address := addr, proofCount := 0, blocks := [] }

/-- `proverStats[proverId].proofCount++; proverStats[proverId].blocks.push(...)`. -/
def applyProof (e : ProofEvent) (r : ProverRecord) : ProverRecord :=
  { r with proofCount := r.proofCount + 1, blocks := r.blocks ++ [mkBlockRef e] }

structure ProofScanState where
  proverStats : List ProverRecord
  totalProofs : Nat
deriving DecidableEq

/-- The body of the per-event loop of `indexProofEvents`. -/
def stepProof (st : ProofScanState) (e : ProofEvent) : ProofScanState :=
  { proverStats :=
      upsert ProverRecord.address e.proverId (emptyProver e.proverId) (applyProof e)
        st.proverStats,
    totalProofs := st.totalProofs + 1 }

/-- Consuming the whole (concatenated, window-ordered) event stream. -/
def processProofEvents (evs : List ProofEvent) : ProofScanState :=
  evs.foldl stepProof { proverStats := [], totalProofs := 0 }

/-- `Object.values(proverStats).sort((a, b) => b.proofCount - a.proofCount)`;
`Array.prototype.sort` is stable (ES2019), modelled by `mergeSort`. -/
def sortedProvers (evs : List ProofEvent) : List ProverRecord :=
  (processProofEvents evs).proverStats.mergeSort fun a b =>
    decide (b.proofCount ≤ a.proofCount)

theorem processProof_stats_eq (evs : List ProofEvent) :
    ∀ st : ProofScanState,
      (evs.foldl stepProof st).proverStats
        = procFold ProverRecord.address ProofEvent.proverId
            (fun e => emptyProver e.proverId) applyProof evs st.proverStats := by
  induction evs with
  | nil => intro st; rfl
  | cons e evs ih =>
    intro st
    rw [List.foldl_cons, procFold, List.foldl_cons, ih (stepProof st e)]
    rfl

theorem processProof_total_eq (evs : List ProofEvent) :
    ∀ st : ProofScanState,
      (evs.foldl stepProof st).totalProofs = st.totalProofs + evs.length := by
  induction evs with
  | nil => intro st; rfl
  | cons e evs ih =>
    intro st
    rw [List.foldl_cons, ih (stepProof st e), List.length_cons]
    simp [stepProof]
    omega

theorem foldl_applyProof (l : List ProofEvent) : ∀ r : ProverRecord,
    l.foldl (fun r e => applyProof e r) r
      = { r with proofCount := r.proofCount + l.length,
                 blocks := r.blocks ++ l.map mkBlockRef } := by
  induction l with
  | nil => intro r; simp
  | cons e l ih =>
    intro r
    rw [List.foldl_cons, ih (applyProof e r)]
    simp [applyProof]
    omega

/-- Characterization of a prover record: its fields are determined by the
events carrying its address, in arrival order. -/
theorem proverRecord_eq (evs : List ProofEvent) (r : ProverRecord)
    (hr : r ∈ (processProofEvents evs).proverStats) :
    r.proofCount = (evs.filter fun e => e.proverId == r.address).length ∧
    r.blocks = (evs.filter fun e => e.proverId == r.address).map mkBlockRef := by
  rw [processProofEvents, processProof_stats_eq] at hr
  have h1 := mem_procFold_collect ProverRecord.address ProofEvent.proverId
    (fun e => emptyProver e.proverId) applyProof
    (fun _ _ => rfl) (fun _ => rfl) evs r hr
  rcases hfil : evs.filter fun e => e.proverId == r.address with _ | ⟨e, rest⟩
  · rw [hfil] at h1
    simp [collect] at h1
  · rw [hfil] at h1
    rw [collect, List.foldl_cons] at h1
    simp only [Option.getD_none] at h1
    have h2 : collect (fun e => emptyProver e.proverId) applyProof
        (some (applyProof e (emptyProver e.proverId))) rest
        = some (rest.foldl (fun r e => applyProof e r) (applyProof e (emptyProver e.proverId))) :=
      collect_some _ _ rest _
    rw [collect] at h2
    rw [h2] at h1
    rw [foldl_applyProof] at h1
    have h3 := Option.some.inj h1
    rw [hfil, ← h3]
    simp [applyProof, emptyProver]
    omega

/-! ## Slash aggregator (`indexSlashEvents`) -/

/-- A `Slashed` log event: `event.args.attester`, `event.args.amount`
(a `BigInt`, modelled as `Nat`), plus log metadata. -/
structure SlashEvent where
  attester : String
  amount : Nat
  txHash : String
  ethBlockNumber : Nat
deriving DecidableEq

/-- One entry of `attesterStats[attester].slashes` (amount stored as its
decimal string in JS, kept as the integer here). -/
structure SlashDetail where
  amount : Nat
  txHash : String
  ethBlockNumber : Nat
deriving DecidableEq

/-- `attesterStats[attester]` in slash mode. -/
structure AttesterSlashRecord where
  address : String
  slashCount : Nat
  totalAmountSlashed : Nat
  slashes : List SlashDetail
deriving DecidableEq

def mkSlashDetail (e : SlashEvent) : SlashDetail :=
  { amount := e.amount, txHash := e.txHash, ethBlockNumber := e.ethBlockNumber }

/-- `{ address: attester, slashCount: 0, totalAmountSlashed: 0n, slashes: [] }`. -/
def emptySlashRecord (addr : String) : AttesterSlashRecord :=
  { address := addr, slashCount := 0, totalAmountSlashed := 0, slashes := [] }

/-- `slashCount++; totalAmountSlashed += amount; slashes.push(...)`. -/
def applySlash (e : SlashEvent) (r : AttesterSlashRecord) : AttesterSlashRecord :=
  { r with slashCount := r.slashCount + 1,
           totalAmountSlashed := r.totalAmountSlashed + e.amount,
           slashes := r.slashes ++ [mkSlashDetail e] }

structure SlashScanState where
  attesterStats : List AttesterSlashRecord
  totalSlashes : Nat
  totalAmountSlashed : Nat
deriving DecidableEq

/-- The body of the per-event loop of `indexSlashEvents` (`totalSlashes++`
and the global `totalAmountSlashed += amount` happen on every event). -/
def stepSlash (st : SlashScanState) (e : SlashEvent) : SlashScanState :=
  { attesterStats :=
      upsert AttesterSlashRecord.address e.attester (emptySlashRecord e.attester)
        (applySlash e) st.attesterStats,
    totalSlashes := st.totalSlashes + 1,
    totalAmountSlashed := st.totalAmountSlashed + e.amount }

def processSlashEvents (evs : List SlashEvent) : SlashScanState :=
  evs.foldl stepSlash { attesterStats := [], totalSlashes := 0, totalAmountSlashed := 0 }

theorem processSlash_stats_eq (evs : List SlashEvent) :
    ∀ st : SlashScanState,
      (evs.foldl stepSlash st).attesterStats
        = procFold AttesterSlashRecord.address SlashEvent.attester
            (fun e => emptySlashRecord e.attester) applySlash evs st.attesterStats := by
  induction evs with
  | nil => intro st; rfl
  | cons e evs ih =>
    intro st
    rw [List.foldl_cons, procFold, List.foldl_cons, ih (stepSlash st e)]
    rfl

theorem processSlash_totalAmount_eq (evs : List SlashEvent) :
    ∀ st : SlashScanState,
      (evs.foldl stepSlash st).totalAmountSlashed
        = st.totalAmountSlashed + (evs.map SlashEvent.amount).sum := by
  induction evs with
  | nil => intro st; simp
  | cons e evs ih =>
    intro st
    rw [List.foldl_cons, ih (stepSlash st e)]
    simp [stepSlash]
    omega

theorem processSlash_total_eq (evs : List SlashEvent) :
    ∀ st : SlashScanState,
      (evs.foldl stepSlash st).totalSlashes = st.totalSlashes + evs.length := by
  induction evs with
  | nil => intro st; rfl
  | cons e evs ih =>
    intro st
    rw [List.foldl_cons, ih (stepSlash st e), List.length_cons]
    simp [stepSlash]
    omega

theorem foldl_applySlash (l : List SlashEvent) : ∀ r : AttesterSlashRecord,
    l.foldl (fun r e => applySlash e r) r
      = { r with slashCount := r.slashCount + l.length,
                 totalAmountSlashed := r.totalAmountSlashed + (l.map SlashEvent.amount).sum,
                 slashes := r.slashes ++ l.map mkSlashDetail } := by
  induction l with
  | nil => intro r; simp
  | cons e l ih =>
    intro r
    rw [List.foldl_cons, ih (applySlash e r)]
    simp [applySlash]
    omega

/-- Characterization of an attester's slash record. -/
theorem slashRecord_eq (evs : List SlashEvent) (r : AttesterSlashRecord)
    (hr : r ∈ (processSlashEvents evs).attesterStats) :
    r.slashCount = (evs.filter fun e => e.attester == r.address).length ∧
    r.totalAmountSlashed
      = ((evs.filter fun e => e.attester == r.address).map SlashEvent.amount).sum ∧
    r.slashes = (evs.filter fun e => e.attester == r.address).map mkSlashDetail := by
  rw [processSlashEvents, processSlash_stats_eq] at hr
  have h1 := mem_procFold_collect AttesterSlashRecord.address SlashEvent.attester
    (fun e => emptySlashRecord e.attester) applySlash
    (fun _ _ => rfl) (fun _ => rfl) evs r hr
  rcases hfil : evs.filter fun e => e.attester == r.address with _ | ⟨e, rest⟩
  · rw [hfil] at h1
    simp [collect] at h1
  · rw [hfil] at h1
    rw [collect, List.foldl_cons] at h1
    simp only [Option.getD_none] at h1
    have h2 : collect (fun e => emptySlashRecord e.attester) applySlash
        (some (applySlash e (emptySlashRecord e.attester))) rest
        = some (rest.foldl (fun r e => applySlash e r)
            (applySlash e (emptySlashRecord e.attester))) :=
      collect_some _ _ rest _
    rw [collect] at h2
    rw [h2] at h1
    rw [foldl_applySlash] at h1
    have h3 := Option.some.inj h1
    rw [hfil, ← h3]
    simp [applySlash, emptySlashRecord]
    omega

/-! ## Exit aggregator (`indexExitEvents`)

Two-phase consumption: all `WithdrawInitiated` events first, then all
`WithdrawFinalized` events.  `blockTimestamps` (resolved out-of-band) is
modelled as a function `ts : Nat → Nat` from chain block number to timestamp;
`now = Math.floor(Date.now() / 1000)` is a single parameter, evaluated once
per run. -/

/-- A `WithdrawInitiated` log event. -/
structure InitiatedEvent where
  attester : String
  recipient : String
  amount : Nat
  txHash : String
  ethBlockNumber : Nat
deriving DecidableEq

/-- A `WithdrawFinalized` log event. -/
structure FinalizedEvent where
  attester : String
  recipient : String
  amount : Nat
  txHash : String
  ethBlockNumber : Nat
deriving DecidableEq

/-- One entry of `attesterStats[attester].initiated` (amount stored as its
decimal string in JS, kept as the integer here). -/
structure InitiatedRecord where
  recipient : String
  amount : Nat
  txHash : String
  ethBlockNumber : Nat
  timestamp : Nat
  exitableAt : Nat
  canFinalize : Bool
deriving DecidableEq

/-- One entry of `attesterStats[attester].finalized`. -/
structure FinalizedRecord where
  recipient : String
  amount : Nat
  txHash : String
  ethBlockNumber : Nat
deriving DecidableEq

/-- `attesterStats[attester]` in exit mode. -/
structure AttesterExitRecord where
  address : String
  initiatedCount : Nat
  finalizedCount : Nat
  totalInitiatedAmount : Nat
  totalFinalizedAmount : Nat
  initiated : List InitiatedRecord
  finalized : List FinalizedRecord
deriving DecidableEq

def emptyExitRecord (addr : String) : AttesterExitRecord :=
  { address := addr, initiatedCount := 0, finalizedCount := 0,
    totalInitiatedAmount := 0, totalFinalizedAmount := 0,
    initiated := [], finalized := [] }

/-- The per-initiated-event record:
`timestamp = blockTimestamps[event.blockNumber]`,
`exitableAt = timestamp + EXIT_DELAY_SECONDS`,
`canFinalize = now >= exitableAt`. -/
def mkInitiatedRecord (ts : Nat → Nat) (now : Nat) (e : InitiatedEvent) : InitiatedRecord :=
  { recipient := e.recipient, amount := e.amount, txHash := e.txHash,
    ethBlockNumber := e.ethBlockNumber,
    timestamp := ts e.ethBlockNumber,
    exitableAt := ts e.ethBlockNumber + EXIT_DELAY_SECONDS,
    canFinalize := decide (now ≥ ts e.ethBlockNumber + EXIT_DELAY_SECONDS) }

def mkFinalizedRecord (e : FinalizedEvent) : FinalizedRecord :=
  { recipient := e.recipient, amount := e.amount, txHash := e.txHash,
    ethBlockNumber := e.ethBlockNumber }

/-- `initiatedCount++; totalInitiatedAmount += amount; initiated.push(...)`. -/
def applyInitiated (ts : Nat → Nat) (now : Nat) (e : InitiatedEvent)
    (r : AttesterExitRecord) : AttesterExitRecord :=
  { r with initiatedCount := r.initiatedCount + 1,
           totalInitiatedAmount := r.totalInitiatedAmount + e.amount,
           initiated := r.initiated ++ [mkInitiatedRecord ts now e] }

/-- `finalizedCount++; totalFinalizedAmount += amount; finalized.push(...)`. -/
def applyFinalized (e : FinalizedEvent) (r : AttesterExitRecord) : AttesterExitRecord :=
  { r with finalizedCount := r.finalizedCount + 1,
           totalFinalizedAmount := r.totalFinalizedAmount + e.amount,
           finalized := r.finalized ++ [mkFinalizedRecord e] }

/-- `attesterStats` after both processing loops of `indexExitEvents`. -/
def exitStats (ts : Nat → Nat) (now : Nat)
    (initiatedEvents : List InitiatedEvent) (finalizedEvents : List FinalizedEvent) :
    List AttesterExitRecord :=
  procFold AttesterExitRecord.address FinalizedEvent.attester
    (fun e => emptyExitRecord e.attester) applyFinalized finalizedEvents
    (procFold AttesterExitRecord.address InitiatedEvent.attester
      (fun e => emptyExitRecord e.attester) (applyInitiated ts now) initiatedEvents [])

theorem foldl_applyInitiated (ts : Nat → Nat) (now : Nat) (l : List InitiatedEvent) :
    ∀ r : AttesterExitRecord,
      l.foldl (fun r e => applyInitiated ts now e r) r
        = { r with initiatedCount := r.initiatedCount + l.length,
                   totalInitiatedAmount :=
                     r.totalInitiatedAmount + (l.map InitiatedEvent.amount).sum,
                   initiated := r.initiated ++ l.map (mkInitiatedRecord ts now) } := by
  induction l with
  | nil => intro r; simp
  | cons e l ih =>
    intro r
    rw [List.foldl_cons, ih (applyInitiated ts now e r)]
    simp [applyInitiated]
    omega

theorem foldl_applyFinalized (l : List FinalizedEvent) :
    ∀ r : AttesterExitRecord,
      l.foldl (fun r e => applyFinalized e r) r
        = { r with finalizedCount := r.finalizedCount + l.length,
                   totalFinalizedAmount :=
                     r.totalFinalizedAmount + (l.map FinalizedEvent.amount).sum,
                   finalized := r.finalized ++ l.map mkFinalizedRecord } := by
  induction l with
  | nil => intro r; simp
  | cons e l ih =>
    intro r
    rw [List.foldl_cons, ih (applyFinalized e r)]
    simp [applyFinalized]
    omega

theorem nodup_exitStats (ts : Nat → Nat) (now : Nat)
    (ie : List InitiatedEvent) (fe : List FinalizedEvent) :
    ((exitStats ts now ie fe).map AttesterExitRecord.address).Nodup := by
  exact nodup_map_key_procFold AttesterExitRecord.address FinalizedEvent.attester
    (fun e => emptyExitRecord e.attester) applyFinalized (fun _ _ => rfl) (fun _ => rfl) fe _
    (nodup_map_key_procFold AttesterExitRecord.address InitiatedEvent.attester
      (fun e => emptyExitRecord e.attester) (applyInitiated ts now)
      (fun _ _ => rfl) (fun _ => rfl) ie [] (by simp))

/-- Characterization of an attester's exit record: each field is determined by
the initiated and finalized events carrying its address, in arrival order. -/
theorem exitRecord_eq (ts : Nat → Nat) (now : Nat)
    (ie : List InitiatedEvent) (fe : List FinalizedEvent) (r : AttesterExitRecord)
    (hr : r ∈ exitStats ts now ie fe) :
    r.initiatedCount = (ie.filter fun e => e.attester == r.address).length ∧
    r.finalizedCount = (fe.filter fun e => e.attester == r.address).length ∧
    r.initiated
      = (ie.filter fun e => e.attester == r.address).map (mkInitiatedRecord ts now) ∧
    r.finalized = (fe.filter fun e => e.attester == r.address).map mkFinalizedRecord ∧
    r.totalInitiatedAmount
      = ((ie.filter fun e => e.attester == r.address).map InitiatedEvent.amount).sum ∧
    r.totalFinalizedAmount
      = ((fe.filter fun e => e.attester == r.address).map FinalizedEvent.amount).sum := by
  have hnd : ((exitStats ts now ie fe).map AttesterExitRecord.address).Nodup :=
    nodup_exitStats ts now ie fe
  have h1 := lookupRec_of_mem_nodup AttesterExitRecord.address _ r hr hnd
  rw [exitStats, lookupRec_procFold AttesterExitRecord.address FinalizedEvent.attester
    (fun e => emptyExitRecord e.attester) applyFinalized
    (fun _ _ => rfl) (fun _ => rfl)] at h1
  rw [lookupRec_procFold AttesterExitRecord.address InitiatedEvent.attester
    (fun e => emptyExitRecord e.attester) (applyInitiated ts now)
    (fun _ _ => rfl) (fun _ => rfl)] at h1
  have hempty : lookupRec AttesterExitRecord.address r.address
      ([] : List AttesterExitRecord) = none := rfl
  rw [hempty] at h1
  -- phase 1: the record produced by the initiated events with this address
  have hphase1 : ∀ li : List InitiatedEvent,
      collect (fun e => emptyExitRecord e.attester) (applyInitiated ts now) none li
        = if li.isEmpty then none
          else some { address := (li.headD ⟨r.address, "", 0, "", 0⟩).attester,
                      initiatedCount := li.length, finalizedCount := 0,
                      totalInitiatedAmount := (li.map InitiatedEvent.amount).sum,
                      totalFinalizedAmount := 0,
                      initiated := li.map (mkInitiatedRecord ts now), finalized := [] } := by
    intro li
    rcases li with _ | ⟨e, rest⟩
    · rfl
    · rw [collect, List.foldl_cons]
      simp only [Option.getD_none, List.isEmpty_cons]
      have h2 := collect_some (fun e : InitiatedEvent => emptyExitRecord e.attester)
        (applyInitiated ts now) rest (applyInitiated ts now e (emptyExitRecord e.attester))
      rw [collect] at h2
      rw [h2, foldl_applyInitiated]
      simp [applyInitiated, emptyExitRecord]
      omega
  -- phase 2: fold the finalized events with this address on top
  rcases hfi : ie.filter fun e => e.attester == r.address with _ | ⟨e1, rest1⟩ <;>
    rcases hff : fe.filter fun e => e.attester == r.address with _ | ⟨e2, rest2⟩
  · rw [hfi, hff, hphase1 []] at h1
    simp [collect] at h1
  · rw [hfi, hff, hphase1 []] at h1
    simp only [List.isEmpty_nil, if_pos] at h1
    rw [collect, List.foldl_cons] at h1
    simp only [Option.getD_none] at h1
    have h2 := collect_some (fun e : FinalizedEvent => emptyExitRecord e.attester)
      applyFinalized rest2 (applyFinalized e2 (emptyExitRecord e2.attester))
    rw [collect] at h2
    rw [h2, foldl_applyFinalized] at h1
    have h3 := Option.some.inj h1
    have he2 : e2.attester = r.address := by
      have : e2 ∈ fe.filter fun e => e.attester == r.address := by
        rw [hff]; exact List.mem_cons_self _ _
      simpa using (List.of_mem_filter this)
    rw [hfi, hff, ← h3]
    simp [applyFinalized, emptyExitRecord]
    omega
  · rw [hfi, hff, hphase1 (e1 :: rest1)] at h1
    simp only [List.isEmpty_cons, if_neg] at h1
    rw [collect] at h1
    simp only [List.foldl_nil] at h1
    have h3 := Option.some.inj h1
    have he1 : e1.attester = r.address := by
      have : e1 ∈ ie.filter fun e => e.attester == r.address := by
        rw [hfi]; exact List.mem_cons_self _ _
      simpa using (List.of_mem_filter this)
    rw [hfi, hff, ← h3]
    simp
  · rw [hfi, hff, hphase1 (e1 :: rest1)] at h1
    simp only [List.isEmpty_cons, Bool.false_eq_true, if_false] at h1
    rw [collect, List.foldl_cons] at h1
    simp only [Option.getD_some] at h1
    have h2 := collect_some (fun e : FinalizedEvent => emptyExitRecord e.attester)
      applyFinalized rest2 (applyFinalized e2
        { address := ((e1 :: rest1).headD ⟨r.address, "", 0, "", 0⟩).attester,
          initiatedCount := (e1 :: rest1).length, finalizedCount := 0,
          totalInitiatedAmount := ((e1 :: rest1).map InitiatedEvent.amount).sum,
          totalFinalizedAmount := 0,
          initiated := (e1 :: rest1).map (mkInitiatedRecord ts now), finalized := [] })
    rw [collect] at h2
    rw [h2, foldl_applyFinalized] at h1
    have h3 := Option.some.inj h1
    rw [hfi, hff, ← h3]
    simp [applyFinalized]
    omega

/-! ## Pending-exit derivation and exit summary -/

/-- `arr.slice(-n)` for `n > 0`: the last `n` entries (all of them if
`n ≥ arr.length`). -/
def lastN {α : Type} (n : Nat) (l : List α) : List α := l.drop (l.length - n)

/-- One `pendingExits` entry: `{ attester: attester.address, ...exit }`.
The JS spread flattens the initiated record into the object; it is kept as a
nested field here. -/
structure PendingExit where
  attester : String
  exit : InitiatedRecord
deriving DecidableEq

/-- The accumulators of the summary loop of `indexExitEvents`
(lines `totalInitiated`/`totalFinalized`/`pendingCanFinalize`/
`pendingCannotFinalize`/`pendingExits`). -/
structure ExitSummaryState where
  totalInitiated : Nat
  totalFinalized : Nat
  pendingCanFinalize : Nat
  pendingCannotFinalize : Nat
  pendingExits : List PendingExit
deriving DecidableEq

/-- Body of the inner loop `for (const exit of unfinalized)`. -/
def pendingStep (addr : String) (st : ExitSummaryState) (ex : InitiatedRecord) :
    ExitSummaryState :=
  { st with
    pendingCanFinalize :=
      if ex.canFinalize then st.pendingCanFinalize + 1 else st.pendingCanFinalize,
    pendingCannotFinalize :=
      if ex.canFinalize then st.pendingCannotFinalize else st.pendingCannotFinalize + 1,
    pendingExits := st.pendingExits ++ [{ attester := addr, exit := ex }] }

/-- Body of `for (const attester of Object.values(attesterStats))`:
`pendingCount = initiatedCount - finalizedCount` (a JS number, so `Int`);
if positive, `unfinalized = attester.initiated.slice(-pendingCount)`. -/
def stepExitSummary (st : ExitSummaryState) (a : AttesterExitRecord) : ExitSummaryState :=
  let st1 := { st with totalInitiated := st.totalInitiated + a.initiatedCount,
                       totalFinalized := st.totalFinalized + a.finalizedCount }
  let pendingCount : Int := (a.initiatedCount : Int) - (a.finalizedCount : Int)
  if 0 < pendingCount then
    (lastN pendingCount.toNat a.initiated).foldl (pendingStep a.address) st1
  else st1

def exitSummaryState (stats : List AttesterExitRecord) : ExitSummaryState :=
  stats.foldl stepExitSummary
    { totalInitiated := 0, totalFinalized := 0, pendingCanFinalize := 0,
      pendingCannotFinalize := 0, pendingExits := [] }

/-- `pendingExits.sort((a, b) => a.exitableAt - b.exitableAt)` (stable). -/
def sortedPendingExits (stats : List AttesterExitRecord) : List PendingExit :=
  (exitSummaryState stats).pendingExits.mergeSort fun a b =>
    decide (a.exit.exitableAt ≤ b.exit.exitableAt)

/-- `Object.values(attesterStats).sort((a, b) => b.initiatedCount - a.initiatedCount)`
(stable). -/
def sortedExitAttesters (stats : List AttesterExitRecord) : List AttesterExitRecord :=
  stats.mergeSort fun a b => decide (b.initiatedCount ≤ a.initiatedCount)

/-- The `summary` object of the exit snapshot; `totalPending` is
`pendingExits.length` (taken after the in-place sort, which preserves it). -/
structure ExitSummary where
  totalInitiated : Nat
  totalFinalized : Nat
  totalPending : Nat
  pendingCanFinalize : Nat
  pendingCannotFinalize : Nat
  uniqueAttesters : Nat
deriving DecidableEq

def exitSummary (stats : List AttesterExitRecord) : ExitSummary :=
  { totalInitiated := (exitSummaryState stats).totalInitiated,
    totalFinalized := (exitSummaryState stats).totalFinalized,
    totalPending := (sortedPendingExits stats).length,
    pendingCanFinalize := (exitSummaryState stats).pendingCanFinalize,
    pendingCannotFinalize := (exitSummaryState stats).pendingCannotFinalize,
    uniqueAttesters := stats.length }

/-- The pending-exit batch one attester record contributes. -/
def pendingOf (a : AttesterExitRecord) : List PendingExit :=
  if 0 < (a.initiatedCount : Int) - (a.finalizedCount : Int) then
    (lastN ((a.initiatedCount : Int) - (a.finalizedCount : Int)).toNat a.initiated).map
      fun ex => { attester := a.address, exit := ex }
  else []

theorem foldl_pendingStep (addr : String) (l : List InitiatedRecord) :
    ∀ st : ExitSummaryState,
      l.foldl (pendingStep addr) st
        = { st with
            pendingCanFinalize :=
              st.pendingCanFinalize + l.countP (fun ex => ex.canFinalize),
            pendingCannotFinalize :=
              st.pendingCannotFinalize + l.countP (fun ex => !ex.canFinalize),
            pendingExits :=
              st.pendingExits ++ l.map fun ex => { attester := addr, exit := ex } } := by
  induction l with
  | nil => intro st; simp
  | cons ex l ih =>
    intro st
    rw [List.foldl_cons, ih (pendingStep addr st ex)]
    rcases hc : ex.canFinalize <;>
      simp [pendingStep, hc, List.countP_cons] <;> omega

theorem stepExitSummary_eq (st : ExitSummaryState) (a : AttesterExitRecord) :
    stepExitSummary st a
      = { totalInitiated := st.totalInitiated + a.initiatedCount,
          totalFinalized := st.totalFinalized + a.finalizedCount,
          pendingCanFinalize :=
            st.pendingCanFinalize + (pendingOf a).countP (fun p => p.exit.canFinalize),
          pendingCannotFinalize :=
            st.pendingCannotFinalize + (pendingOf a).countP (fun p => !p.exit.canFinalize),
          pendingExits := st.pendingExits ++ pendingOf a } := by
  rw [stepExitSummary, pendingOf]
  split
  · rw [foldl_pendingStep]
    simp [List.countP_map, Function.comp]
    exact ⟨rfl, rfl⟩
  · simp

theorem exitSummaryState_foldl_eq (stats : List AttesterExitRecord) :
    ∀ st : ExitSummaryState,
      stats.foldl stepExitSummary st
        = { totalInitiated :=
              st.totalInitiated + (stats.map AttesterExitRecord.initiatedCount).sum,
            totalFinalized :=
              st.totalFinalized + (stats.map AttesterExitRecord.finalizedCount).sum,
            pendingCanFinalize :=
              st.pendingCanFinalize
                + (stats.flatMap pendingOf).countP (fun p => p.exit.canFinalize),
            pendingCannotFinalize :=
              st.pendingCannotFinalize
                + (stats.flatMap pendingOf).countP (fun p => !p.exit.canFinalize),
            pendingExits := st.pendingExits ++ stats.flatMap pendingOf } := by
  induction stats with
  | nil => intro st; simp
  | cons a stats ih =>
    intro st
    rw [List.foldl_cons, ih (stepExitSummary st a), stepExitSummary_eq]
    simp [List.countP_append]
    omega

theorem exitSummaryState_pendingExits (stats : List AttesterExitRecord) :
    (exitSummaryState stats).pendingExits = stats.flatMap pendingOf := by
  rw [exitSummaryState, exitSummaryState_foldl_eq]
  simp

theorem exitSummaryState_counts (stats : List AttesterExitRecord) :
    (exitSummaryState stats).totalInitiated
        = (stats.map AttesterExitRecord.initiatedCount).sum ∧
    (exitSummaryState stats).totalFinalized
        = (stats.map AttesterExitRecord.finalizedCount).sum ∧
    (exitSummaryState stats).pendingCanFinalize
        = (stats.flatMap pendingOf).countP (fun p => p.exit.canFinalize) ∧
    (exitSummaryState stats).pendingCannotFinalize
        = (stats.flatMap pendingOf).countP (fun p => !p.exit.canFinalize) := by
  rw [exitSummaryState, exitSummaryState_foldl_eq]
  simp

theorem pendingOf_attester (a : AttesterExitRecord) (p : PendingExit)
    (hp : p ∈ pendingOf a) : p.attester = a.address := by
  rw [pendingOf] at hp
  split at hp
  · rcases List.mem_map.mp hp with ⟨ex, _, hex⟩
    rw [← hex]
  · simp at hp

theorem mem_flatMap_pendingOf (stats : List AttesterExitRecord) (p : PendingExit)
    (hp : p ∈ stats.flatMap pendingOf) : p.attester ∈ stats.map AttesterExitRecord.address := by
  rcases List.mem_flatMap.mp hp with ⟨a, ha, hpa⟩
  rw [pendingOf_attester a p hpa]
  exact List.mem_map_of_mem _ ha

/-- With pairwise-distinct attester addresses, the pending exits carrying one
attester's address are exactly that attester's batch. -/
theorem filter_flatMap_pendingOf (r : AttesterExitRecord) :
    ∀ stats : List AttesterExitRecord,
      (stats.map AttesterExitRecord.address).Nodup → r ∈ stats →
      (stats.flatMap pendingOf).filter (fun p => p.attester == r.address) = pendingOf r := by
  intro stats
  induction stats with
  | nil => intro _ hr; simp at hr
  | cons a rest ih =>
    intro hnd hr
    rw [List.flatMap_cons, List.filter_append]
    rcases List.mem_cons.mp hr with h | h
    · subst h
      have h1 : (pendingOf r).filter (fun p => p.attester == r.address) = pendingOf r :=
        List.filter_eq_self.mpr fun p hp => by simp [pendingOf_attester r p hp]
      have h2 : (rest.flatMap pendingOf).filter (fun p => p.attester == r.address) = [] := by
        apply List.filter_eq_nil_iff.mpr
        intro p hp
        have h3 := mem_flatMap_pendingOf rest p hp
        have h4 : r.address ∉ rest.map AttesterExitRecord.address :=
          (List.nodup_cons.mp (by simpa using hnd)).1
        simp only [beq_iff_eq]
        intro hc
        exact h4 (hc ▸ h3)
      rw [h1, h2, List.append_nil]
    · have hane : a.address ≠ r.address := by
        intro hc
        have : r.address ∈ rest.map AttesterExitRecord.address :=
          List.mem_map_of_mem _ h
        rw [← hc] at this
        exact (List.nodup_cons.mp (by simpa using hnd)).1 this
      have h1 : (pendingOf a).filter (fun p => p.attester == r.address) = [] := by
        apply List.filter_eq_nil_iff.mpr
        intro p hp
        rw [pendingOf_attester a p hp]
        simp [hane]
      rw [h1, List.nil_append]
      exact ih (List.nodup_cons.mp (by simpa using hnd)).2 h

/-! ## Run model: chunked fetching, timestamp resolution, exit code

The RPC provider is abstracted as oracles: a per-window log query that may
fail (`Except.error` = rejected promise), and a per-block lookup used by the
timestamp resolver.  An `Except.error` escaping the run models an exception
reaching `main().catch(...)`. -/

/-- A block as returned by `provider.getBlock`: `{ number, timestamp }`. -/
structure EthBlock where
  number : Nat
  timestamp : Nat
deriving DecidableEq

/-- The window loop of `indexExitEvents`: per window both filters are queried
together (`Promise.all` over the pair); on failure the `catch` logs and the
window is skipped — it contributes no events — and scanning continues with
the next window. -/
def fetchExitEvents
    (query : Nat → Nat → Except String (List InitiatedEvent × List FinalizedEvent))
    (f t : Nat) : List InitiatedEvent × List FinalizedEvent :=
  (chunkWindows f t).foldl
    (fun acc w =>
      match query w.1 w.2 with
      | .ok res => (acc.1 ++ res.1, acc.2 ++ res.2)
      | .error _ => acc)
    ([], [])

/-- Replace one window's query result. -/
def overrideWindow
    (query : Nat → Nat → Except String (List InitiatedEvent × List FinalizedEvent))
    (w : Nat × Nat) (res : Except String (List InitiatedEvent × List FinalizedEvent)) :
    Nat → Nat → Except String (List InitiatedEvent × List FinalizedEvent) :=
  fun s e => if s = w.1 ∧ e = w.2 then res else query s e

/-- The batches the timestamp resolver works through:
`for (let i = 0; i < uniqueBlocks.length; i += 10)` with
`batch = uniqueBlocks.slice(i, i + 10)`. -/
def batchesOf (l : List Nat) : List (List Nat) :=
  if l = [] then [] else l.take 10 :: batchesOf (l.drop 10)
termination_by l.length
decreasing_by
  rename_i h
  have : l.length ≠ 0 := fun hc => h (List.eq_nil_of_length_eq_zero hc)
  simp only [List.length_drop]
  omega

/-- `Promise.all(batch.map(bn => provider.getBlock(bn)))`: all lookups of one
batch are issued together; the collective result is the list of blocks if
every lookup succeeded, and a rejection if any lookup failed. -/
def mapBatch (getBlock : Nat → Except String EthBlock) : List Nat → Except String (List EthBlock)
  | [] => .ok []
  | x :: xs =>
      match getBlock x with
      | .error e => .error e
      | .ok b =>
          match mapBatch getBlock xs with
          | .error e => .error e
          | .ok bs => .ok (b :: bs)

/-- The resolver loop: one batch of (at most) 10 awaited in full before the
next batch starts; a single failed lookup rejects its batch and (uncaught)
the whole run. -/
def resolveBatches (getBlock : Nat → Except String EthBlock) (l : List Nat) :
    Except String (List EthBlock) :=
  if l = [] then .ok []
  else
    match mapBatch getBlock (l.take 10) with
    | .error e => .error e
    | .ok blocks =>
        match resolveBatches getBlock (l.drop 10) with
        | .error e => .error e
        | .ok rest => .ok (blocks ++ rest)
termination_by l.length
decreasing_by
  simp only [List.length_drop]
  cases l with
  | nil => simp_all
  | cons a as => simp only [List.length_cons]; omega

/-- Batch-at-a-time reference shape of the resolver. -/
def resolveBatchList (getBlock : Nat → Except String EthBlock) :
    List (List Nat) → Except String (List EthBlock)
  | [] => .ok []
  | b :: bs =>
      match mapBatch getBlock b with
      | .error e => .error e
      | .ok blocks =>
          match resolveBatchList getBlock bs with
          | .error e => .error e
          | .ok rest => .ok (blocks ++ rest)

/-- The exit snapshot (`outputData` of `indexExitEvents`). -/
structure ExitSnapshot where
  currentTimestamp : Nat
  fromBlock : Nat
  toBlock : Nat
  summary : ExitSummary
  pendingExits : List PendingExit
  attesters : List AttesterExitRecord
deriving DecidableEq

/-- The whole exit-mode run: fetch events window-by-window (window failures
tolerated), resolve timestamps of the deduplicated initiated-event blocks
(failure fatal, nothing written), aggregate and summarize, write the
snapshot.  `blockTimestamps[bn]` becomes a lookup in the resolved blocks. -/
def runExitScan
    (query : Nat → Nat → Except String (List InitiatedEvent × List FinalizedEvent))
    (getBlock : Nat → Except String EthBlock) (now f t : Nat) :
    Except String ExitSnapshot :=
  let ev := fetchExitEvents query f t
  match resolveBatches getBlock (dedupFirst (ev.1.map InitiatedEvent.ethBlockNumber)) with
  | .error e => .error e
  | .ok blocks =>
      let ts := fun bn => (((blocks.find? fun b => b.number == bn).map
        EthBlock.timestamp).getD 0)
      let stats := exitStats ts now ev.1 ev.2
      .ok { currentTimestamp := now, fromBlock := f, toBlock := t,
            summary := exitSummary stats,
            pendingExits := sortedPendingExits stats,
            attesters := sortedExitAttesters stats }

/-- `main().then(() => process.exit(0)).catch(... process.exit(1))`. -/
def exitCode {σ : Type} : Except String σ → Nat
  | .ok _ => 0
  | .error _ => 1

theorem batchesOf_flatten (l : List Nat) : (batchesOf l).flatten = l := by
  induction l using batchesOf.induct with
  | case1 => rw [batchesOf]; simp
  | case2 l h ih =>
    rw [batchesOf, if_neg h, List.flatten_cons, ih, List.take_append_drop]

theorem batchesOf_size (l : List Nat) (b : List Nat) (hb : b ∈ batchesOf l) :
    b.length ≤ 10 ∧ b ≠ [] := by
  induction l using batchesOf.induct with
  | case1 => rw [batchesOf] at hb; simp at hb
  | case2 l h ih =>
    rw [batchesOf, if_neg h] at hb
    rcases List.mem_cons.mp hb with h1 | h1
    · subst h1
      refine ⟨List.length_take_le _ _, ?_⟩
      intro hc
      have := congrArg List.length hc
      simp only [List.length_take, List.length_nil] at this
      have : l.length ≠ 0 := fun hc2 => h (List.eq_nil_of_length_eq_zero hc2)
      omega
    · exact ih h1

theorem resolveBatches_eq_batchList (getBlock : Nat → Except String EthBlock)
    (l : List Nat) :
    resolveBatches getBlock l = resolveBatchList getBlock (batchesOf l) := by
  induction l using batchesOf.induct with
  | case1 => rw [batchesOf, resolveBatches]; simp [resolveBatchList]
  | case2 l h ih =>
    rw [batchesOf, if_neg h, resolveBatches, if_neg h, resolveBatchList, ih]

theorem mapBatch_isOk_iff (g : Nat → Except String EthBlock) (l : List Nat) :
    (mapBatch g l).isOk = true ↔ ∀ x ∈ l, (g x).isOk = true := by
  induction l with
  | nil => simp [mapBatch, Except.isOk, Except.toBool]
  | cons x l ih =>
    rw [mapBatch]
    rcases hx : g x with e | b
    · simp only [List.mem_cons, Except.isOk, Except.toBool]
      constructor
      · intro hc; simp at hc
      · intro hall
        have h2 := hall x (Or.inl rfl)
        rw [hx] at h2
        simp [Except.isOk, Except.toBool] at h2
    · rcases hl : mapBatch g l with e2 | bs
      · rw [hl] at ih
        simp only [List.mem_cons, Except.isOk, Except.toBool] at ih ⊢
        constructor
        · intro hc; simp at hc
        · intro hall
          exfalso
          have h2 := ih.mpr fun y hy => hall y (Or.inr hy)
          simp at h2
      · rw [hl] at ih
        simp only [List.mem_cons, Except.isOk, Except.toBool] at ih ⊢
        constructor
        · intro _ y hy
          rcases hy with hy | hy
          · subst hy
            rw [hx]
          · exact ih.mp trivial y hy
        · intro _; trivial

theorem resolveBatches_isOk_iff (getBlock : Nat → Except String EthBlock)
    (l : List Nat) :
    (resolveBatches getBlock l).isOk = true ↔ ∀ bn ∈ l, (getBlock bn).isOk = true := by
  induction l using batchesOf.induct with
  | case1 => rw [resolveBatches]; simp [Except.isOk, Except.toBool]
  | case2 l h ih =>
    rw [resolveBatches, if_neg h]
    have hsplit : ∀ bn, bn ∈ l ↔ bn ∈ l.take 10 ∨ bn ∈ l.drop 10 := by
      intro bn
      rw [← List.mem_append, List.take_append_drop]
    rcases htake : mapBatch getBlock (l.take 10) with e | blocks
    · simp only [Except.isOk, Except.toBool]
      constructor
      · intro hc; simp at hc
      · intro hall
        exfalso
        have h2 : (mapBatch getBlock (l.take 10)).isOk = true :=
          (mapBatch_isOk_iff getBlock _).mpr fun x hx =>
            hall x ((hsplit x).mpr (Or.inl hx))
        rw [htake] at h2
        simp [Except.isOk, Except.toBool] at h2
    · rcases hdrop : resolveBatches getBlock (l.drop 10) with e2 | rest
      · rw [hdrop] at ih
        simp only [Except.isOk, Except.toBool] at ih ⊢
        constructor
        · intro hc; simp at hc
        · intro hall
          exfalso
          have h2 := ih.mpr fun bn hbn => hall bn ((hsplit bn).mpr (Or.inr hbn))
          simp at h2
      · rw [hdrop] at ih
        simp only [Except.isOk, Except.toBool] at ih ⊢
        constructor
        · intro _ bn hbn
          rcases (hsplit bn).mp hbn with hbn2 | hbn2
          · have h2 : (mapBatch getBlock (l.take 10)).isOk = true := by
              rw [htake]; rfl
            exact (mapBatch_isOk_iff getBlock _).mp h2 bn hbn2
          · exact ih.mp trivial bn hbn2
        · intro _; trivial

theorem proverStats_map_address (evs : List ProofEvent) :
    (processProofEvents evs).proverStats.map ProverRecord.address
      = dedupFirst (evs.map ProofEvent.proverId) := by
  rw [processProofEvents, processProof_stats_eq]
  rw [map_key_procFold ProverRecord.address ProofEvent.proverId
    (fun e => emptyProver e.proverId) applyProof (fun _ _ => rfl) (fun _ => rfl)]
  simp only [List.map_nil]
  exact foldl_insertIfAbsent_nil_eq _

theorem fetchExitEvents_override (query : Nat → Nat →
      Except String (List InitiatedEvent × List FinalizedEvent))
    (w : Nat × Nat) (msg : String) (f t : Nat) :
    fetchExitEvents (overrideWindow query w (.error msg)) f t
      = fetchExitEvents (overrideWindow query w (.ok ([], []))) f t := by
  rw [fetchExitEvents, fetchExitEvents]
  apply List.foldl_ext
  intro acc w2 _
  by_cases h : w2.1 = w.1 ∧ w2.2 = w.2
  · simp [overrideWindow, if_pos h]
  · simp only [overrideWindow, if_neg h]

/-! ## The claims -/

/-- C3: for every `fromBlock ≤ toBlock` the chunked scan's windows are the
consecutive inclusive sub-ranges `[start, min(start + 9999, toBlock)]`, they
cover `[fromBlock, toBlock]` exactly with no gaps and no overlaps, every
window has at most 10000 blocks, and only the last window may be shorter. -/
theorem chunked_scan_windows_correct (fromBlock toBlock : Nat)
    (h : fromBlock ≤ toBlock) :
    CHUNK_SIZE = 10000 ∧
    (chunkWindows fromBlock toBlock).flatMap windowBlocks
      = List.range' fromBlock (toBlock + 1 - fromBlock) ∧
    ((chunkWindows fromBlock toBlock).Chain' fun w w2 => w2.1 = w.2 + 1) ∧
    (∀ w ∈ chunkWindows fromBlock toBlock,
      w.1 ≤ w.2 ∧ w.2 = min (w.1 + CHUNK_SIZE - 1) toBlock ∧
        w.2 + 1 - w.1 ≤ CHUNK_SIZE) ∧
    (∀ w ∈ (chunkWindows fromBlock toBlock).dropLast, w.2 + 1 - w.1 = CHUNK_SIZE) ∧
    (chunkWindows fromBlock toBlock).head?
      = some (fromBlock, min (fromBlock + CHUNK_SIZE - 1) toBlock) := by
  refine ⟨rfl, chunkWindows_cover fromBlock toBlock, chunkWindows_chain fromBlock toBlock,
    ?_, chunkWindows_dropLast_full fromBlock toBlock, ?_⟩
  · intro w hw
    have h1 := chunkWindows_mem_bounds fromBlock toBlock w hw
    exact ⟨h1.1, h1.2.2, h1.2.1⟩
  · rw [chunkWindows, if_pos h]
    rfl

theorem chunked_scan_windows_correct_witness :
    (0 : Nat) ≤ 25000 ∧
    (CHUNK_SIZE = 10000 ∧
    (chunkWindows 0 25000).flatMap windowBlocks = List.range' 0 (25000 + 1 - 0) ∧
    ((chunkWindows 0 25000).Chain' fun w w2 => w2.1 = w.2 + 1) ∧
    (∀ w ∈ chunkWindows 0 25000,
      w.1 ≤ w.2 ∧ w.2 = min (w.1 + CHUNK_SIZE - 1) 25000 ∧
        w.2 + 1 - w.1 ≤ CHUNK_SIZE) ∧
    (∀ w ∈ (chunkWindows 0 25000).dropLast, w.2 + 1 - w.1 = CHUNK_SIZE) ∧
    (chunkWindows 0 25000).head? = some (0, min (0 + CHUNK_SIZE - 1) 25000)) :=
  ⟨by decide, chunked_scan_windows_correct 0 25000 (by decide)⟩

/-- C6: after consuming any stream of proof-verified events, `totalProofs`
is the number of events processed and `uniqueProvers`
(`Object.keys(proverStats).length`) is the number of distinct prover
addresses occurring in the stream. -/
theorem proof_totals_correct (evs : List ProofEvent) :
    (processProofEvents evs).totalProofs = evs.length ∧
    (processProofEvents evs).proverStats.length
      = (evs.map ProofEvent.proverId).toFinset.card := by
  constructor
  · rw [processProofEvents, processProof_total_eq]
    simp
  · have h1 : (processProofEvents evs).proverStats.length
        = ((processProofEvents evs).proverStats.map ProverRecord.address).length := by
      rw [List.length_map]
    rw [h1, proverStats_map_address, dedupFirst_length_eq_card]

/-- C10: every record's detail-list length matches its counter:
`proofCount = blocks.length`, `slashCount = slashes.length`,
`initiatedCount = initiated.length`, `finalizedCount = finalized.length`. -/
theorem record_detail_lengths
    (pevs : List ProofEvent) (pr : ProverRecord)
    (hpr : pr ∈ (processProofEvents pevs).proverStats)
    (sevs : List SlashEvent) (sr : AttesterSlashRecord)
    (hsr : sr ∈ (processSlashEvents sevs).attesterStats)
    (ts : Nat → Nat) (now : Nat) (ie : List InitiatedEvent) (fe : List FinalizedEvent)
    (er : AttesterExitRecord) (her : er ∈ exitStats ts now ie fe) :
    pr.proofCount = pr.blocks.length ∧
    sr.slashCount = sr.slashes.length ∧
    er.initiatedCount = er.initiated.length ∧
    er.finalizedCount = er.finalized.length := by
  have hp := proverRecord_eq pevs pr hpr
  have hs := slashRecord_eq sevs sr hsr
  have he := exitRecord_eq ts now ie fe er her
  refine ⟨?_, ?_, ?_, ?_⟩
  · rw [hp.1, hp.2, List.length_map]
  · rw [hs.1, hs.2.2, List.length_map]
  · rw [he.1, he.2.2.1, List.length_map]
  · rw [he.2.1, he.2.2.2.1, List.length_map]

/-- C5: the global `totalAmountSlashed` is the exact sum of all slash
amounts, and each attester's `totalAmountSlashed` the exact sum of that
attester's amounts — in unbounded integers (`Nat` here, JS `BigInt`), no
rounding at any size. -/
theorem slash_amount_sums (evs : List SlashEvent) (r : AttesterSlashRecord)
    (hr : r ∈ (processSlashEvents evs).attesterStats) :
    (processSlashEvents evs).totalAmountSlashed = (evs.map SlashEvent.amount).sum ∧
    r.totalAmountSlashed
      = ((evs.filter fun e => e.attester == r.address).map SlashEvent.amount).sum := by
  constructor
  · rw [processSlashEvents, processSlash_totalAmount_eq]
    simp
  · exact (slashRecord_eq evs r hr).2.1

/-- C2: for every initiated event whose block has timestamp `T`, the
maturation timestamp is exactly `T + 1209600`, and `canFinalize` is
`now ≥ exitableAt` for the single scan-time `now`. -/
theorem exit_maturation_correct (ts : Nat → Nat) (now : Nat) (e : InitiatedEvent)
    (ie : List InitiatedEvent) (fe : List FinalizedEvent)
    (r : AttesterExitRecord) (hr : r ∈ exitStats ts now ie fe)
    (ir : InitiatedRecord) (hir : ir ∈ r.initiated) :
    EXIT_DELAY_SECONDS = 1209600 ∧
    (mkInitiatedRecord ts now e).timestamp = ts e.ethBlockNumber ∧
    (mkInitiatedRecord ts now e).exitableAt = ts e.ethBlockNumber + 1209600 ∧
    ((mkInitiatedRecord ts now e).canFinalize = true
      ↔ now ≥ ts e.ethBlockNumber + 1209600) ∧
    ir.exitableAt = ir.timestamp + 1209600 ∧
    (ir.canFinalize = true ↔ now ≥ ir.exitableAt) := by
  have hdelay : EXIT_DELAY_SECONDS = 1209600 := rfl
  refine ⟨hdelay, rfl, by rw [← hdelay]; rfl, ?_, ?_, ?_⟩
  · rw [show (mkInitiatedRecord ts now e).canFinalize
        = decide (now ≥ ts e.ethBlockNumber + EXIT_DELAY_SECONDS) from rfl, hdelay]
    exact decide_eq_true_iff
  · have h1 := (exitRecord_eq ts now ie fe r hr).2.2.1
    rw [h1] at hir
    rcases List.mem_map.mp hir with ⟨e2, _, he2⟩
    rw [← he2, ← hdelay]
    rfl
  · have h1 := (exitRecord_eq ts now ie fe r hr).2.2.1
    rw [h1] at hir
    rcases List.mem_map.mp hir with ⟨e2, _, he2⟩
    rw [← he2]
    exact decide_eq_true_iff

/-- C9: the output prover list is sorted descending by `proofCount`, and for
equal `proofCount` the relative order is the first-encounter order of the
addresses in the input stream: the stable sort leaves every equal-count
fiber exactly as it appears in `proverStats` (whose order is first-encounter
order, the third conjunct). -/
theorem prover_sort_stable (evs : List ProofEvent) :
    (sortedProvers evs).Pairwise (fun a b => b.proofCount ≤ a.proofCount) ∧
    (∀ k : Nat, (sortedProvers evs).filter (fun r => r.proofCount == k)
        = (processProofEvents evs).proverStats.filter (fun r => r.proofCount == k)) ∧
    (processProofEvents evs).proverStats.map ProverRecord.address
      = dedupFirst (evs.map ProofEvent.proverId) := by
  have htrans : ∀ a b c : ProverRecord,
      decide (b.proofCount ≤ a.proofCount) → decide (c.proofCount ≤ b.proofCount) →
      decide (c.proofCount ≤ a.proofCount) := by
    intro a b c h1 h2
    simp only [decide_eq_true_iff] at *
    omega
  have htotal : ∀ a b : ProverRecord,
      decide (b.proofCount ≤ a.proofCount) || decide (a.proofCount ≤ b.proofCount) := by
    intro a b
    simp only [Bool.or_eq_true, decide_eq_true_iff]
    omega
  refine ⟨?_, ?_, proverStats_map_address evs⟩
  · have h1 := List.sorted_mergeSort htrans htotal
      (processProofEvents evs).proverStats
    rw [sortedProvers]
    exact h1.imp fun hab => by simpa using hab
  · intro k
    set recs := (processProofEvents evs).proverStats with hrecs
    set c := recs.filter (fun r => r.proofCount == k) with hc
    have hck : ∀ r ∈ c, r.proofCount = k := by
      intro r hrc
      have := List.of_mem_filter hrc
      simpa using this
    have hpw : c.Pairwise (fun a b => decide (b.proofCount ≤ a.proofCount)) := by
      apply List.pairwise_of_forall_mem_list
      intro a ha b hb
      simp [hck a ha, hck b hb]
    have hsub : List.Sublist c recs := List.filter_sublist recs
    have h1 : List.Sublist c (sortedProvers evs) :=
      List.sublist_mergeSort htrans htotal hpw hsub
    have h2 : List.Perm ((sortedProvers evs).filter (fun r => r.proofCount == k)) c :=
      (List.mergeSort_perm recs _).filter _
    have h3 : List.Sublist c ((sortedProvers evs).filter (fun r => r.proofCount == k)) := by
      have h4 := h1.filter (fun r => r.proofCount == k)
      rwa [List.filter_eq_self.mpr (fun a ha => by simp [hck a ha])] at h4
    exact (h3.eq_of_length h2.length_eq.symm).symm

/-- C1: the pending exits attributed to an attester are exactly the last
`pendingCount` entries of its initiated list in append order when
`pendingCount = initiatedCount - finalizedCount > 0`, and for every attester
the number of attributed pending exits is `max(0, pendingCount)`. -/
theorem pending_exit_attribution (ts : Nat → Nat) (now : Nat)
    (ie : List InitiatedEvent) (fe : List FinalizedEvent)
    (r : AttesterExitRecord) (hr : r ∈ exitStats ts now ie fe) :
    (0 < (r.initiatedCount : Int) - (r.finalizedCount : Int) →
      ((exitSummaryState (exitStats ts now ie fe)).pendingExits.filter
          (fun p => p.attester == r.address))
        = (lastN ((r.initiatedCount : Int) - (r.finalizedCount : Int)).toNat
            r.initiated).map fun ex => { attester := r.address, exit := ex }) ∧
    ((((exitSummaryState (exitStats ts now ie fe)).pendingExits.filter
        (fun p => p.attester == r.address)).length : Int)
      = max 0 ((r.initiatedCount : Int) - (r.finalizedCount : Int))) := by
  have hfilter : (exitSummaryState (exitStats ts now ie fe)).pendingExits.filter
      (fun p => p.attester == r.address) = pendingOf r := by
    rw [exitSummaryState_pendingExits]
    exact filter_flatMap_pendingOf r (exitStats ts now ie fe)
      (nodup_exitStats ts now ie fe) hr
  have hlen : r.initiated.length = r.initiatedCount := by
    have h1 := exitRecord_eq ts now ie fe r hr
    rw [h1.1, h1.2.2.1, List.length_map]
  constructor
  · intro hpos
    rw [hfilter, pendingOf, if_pos hpos]
  · rw [hfilter, pendingOf]
    split
    · rename_i hpos
      rw [List.length_map, lastN, List.length_drop, hlen]
      omega
    · rename_i hneg
      simp only [List.length_nil, Nat.cast_zero]
      omega

/-- The claimed C4 equality fails on one finalized event with no initiated
event: `totalPending = 0` but the signed pending counts sum to `-1`. -/
def c4fe : FinalizedEvent :=
  { attester := "0xb", recipient := "0xr", amount := 5, txHash := "0xt", ethBlockNumber := 3 }

/-- C4 counterexample: `totalPending` is NOT the sum of the (signed)
`initiatedCount - finalizedCount` over all attesters once some attester has
more finalizations than initiations in range. -/
theorem exit_summary_counterexample :
    ¬ (((exitSummary (exitStats (fun _ => 0) 0 [] [c4fe])).totalPending : Int)
        = ((exitStats (fun _ => 0) 0 [] [c4fe]).map fun a =>
            (a.initiatedCount : Int) - (a.finalizedCount : Int)).sum) := by
  intro hc
  have hpend : (exitSummaryState (exitStats (fun _ => 0) 0 [] [c4fe])).pendingExits
      = [] := by decide
  have htp : (exitSummary (exitStats (fun _ => 0) 0 [] [c4fe])).totalPending = 0 := by
    show (sortedPendingExits _).length = 0
    rw [sortedPendingExits, hpend, List.mergeSort_nil]
    rfl
  have hsum : ((exitStats (fun _ => 0) 0 [] [c4fe]).map fun a =>
      (a.initiatedCount : Int) - (a.finalizedCount : Int)).sum = -1 := by decide
  rw [htp, hsum] at hc
  simp at hc

/-- C4 (amended): `totalPending` is the sum over all attesters of
`max(0, initiatedCount - finalizedCount)`, and
`pendingCanFinalize`/`pendingCannotFinalize` partition the pending exits by
the `canFinalize` flag, so they sum to `totalPending` — for every input
stream, including attesters whose `finalizedCount` exceeds their
`initiatedCount`. -/
theorem exit_summary_partition (ts : Nat → Nat) (now : Nat)
    (ie : List InitiatedEvent) (fe : List FinalizedEvent) :
    (((exitSummary (exitStats ts now ie fe)).totalPending : Int)
      = ((exitStats ts now ie fe).map fun a =>
          max 0 ((a.initiatedCount : Int) - (a.finalizedCount : Int))).sum) ∧
    (exitSummary (exitStats ts now ie fe)).pendingCanFinalize
      = ((exitSummaryState (exitStats ts now ie fe)).pendingExits.countP
          fun p => p.exit.canFinalize) ∧
    (exitSummary (exitStats ts now ie fe)).pendingCannotFinalize
      = ((exitSummaryState (exitStats ts now ie fe)).pendingExits.countP
          fun p => !p.exit.canFinalize) ∧
    (exitSummary (exitStats ts now ie fe)).pendingCanFinalize
        + (exitSummary (exitStats ts now ie fe)).pendingCannotFinalize
      = (exitSummary (exitStats ts now ie fe)).totalPending := by
  set stats := exitStats ts now ie fe with hstats
  have hcounts := exitSummaryState_counts stats
  have hlenpend : (exitSummary stats).totalPending
      = (exitSummaryState stats).pendingExits.length := by
    show (sortedPendingExits stats).length = _
    exact (List.mergeSort_perm _ _).length_eq
  have hkey : ∀ l : List AttesterExitRecord,
      (∀ a ∈ l, a.initiated.length = a.initiatedCount) →
      ((l.flatMap pendingOf).length : Int)
        = (l.map fun a =>
            max 0 ((a.initiatedCount : Int) - (a.finalizedCount : Int))).sum := by
    intro l
    induction l with
    | nil => intro _; simp
    | cons a l ih =>
      intro hall
      rw [List.flatMap_cons, List.map_cons, List.length_append, List.sum_cons,
        ← ih fun b hb => hall b (List.mem_cons_of_mem a hb)]
      have ha := hall a (List.mem_cons_self a l)
      have hOf : ((pendingOf a).length : Int)
          = max 0 ((a.initiatedCount : Int) - (a.finalizedCount : Int)) := by
        rw [pendingOf]
        split
        · rename_i hpos
          rw [List.length_map, lastN, List.length_drop, ha]
          omega
        · rename_i hneg
          simp only [List.length_nil, Nat.cast_zero]
          omega
      push_cast
      omega
  refine ⟨?_, ?_, ?_, ?_⟩
  · rw [hlenpend, exitSummaryState_pendingExits]
    exact hkey stats fun a ha => by
      have h1 := exitRecord_eq ts now ie fe a ha
      rw [h1.1, h1.2.2.1, List.length_map]
  · show (exitSummaryState stats).pendingCanFinalize = _
    rw [exitSummaryState_pendingExits]
    exact hcounts.2.2.1
  · show (exitSummaryState stats).pendingCannotFinalize = _
    rw [exitSummaryState_pendingExits]
    exact hcounts.2.2.2
  · rw [hlenpend]
    show (exitSummaryState stats).pendingCanFinalize
        + (exitSummaryState stats).pendingCannotFinalize = _
    rw [hcounts.2.2.1, hcounts.2.2.2, exitSummaryState_pendingExits]
    rw [List.length_eq_countP_add_countP (fun p : PendingExit => p.exit.canFinalize)
      (stats.flatMap pendingOf)]
    congr 1
    apply List.countP_congr
    intro p _
    simp

/-- C7: a failing window query is logged and skipped — it contributes exactly
zero events, subsequent windows still run, nothing already accumulated is
lost, the run completes (`Except.ok`, exit code 0), and the snapshot is still
produced — for any window oracle, however many windows fail, as long as the
timestamp resolver succeeds. -/
theorem window_failure_tolerated
    (query : Nat → Nat → Except String (List InitiatedEvent × List FinalizedEvent))
    (getBlock : Nat → Except String EthBlock) (now f t : Nat)
    (w : Nat × Nat) (msg : String)
    (hres : (resolveBatches getBlock
        (dedupFirst ((fetchExitEvents query f t).1.map
          InitiatedEvent.ethBlockNumber))).isOk = true) :
    (runExitScan query getBlock now f t).isOk = true ∧
    exitCode (runExitScan query getBlock now f t) = 0 ∧
    fetchExitEvents (overrideWindow query w (.error msg)) f t
      = fetchExitEvents (overrideWindow query w (.ok ([], []))) f t ∧
    runExitScan (overrideWindow query w (.error msg)) getBlock now f t
      = runExitScan (overrideWindow query w (.ok ([], []))) getBlock now f t := by
  have hfetch := fetchExitEvents_override query w msg f t
  have hrun : runExitScan (overrideWindow query w (.error msg)) getBlock now f t
      = runExitScan (overrideWindow query w (.ok ([], []))) getBlock now f t := by
    rw [runExitScan, runExitScan, hfetch]
  rcases hr : resolveBatches getBlock
      (dedupFirst ((fetchExitEvents query f t).1.map InitiatedEvent.ethBlockNumber))
    with e | blocks
  · rw [hr] at hres
    simp [Except.isOk, Except.toBool] at hres
  · refine ⟨?_, ?_, hfetch, hrun⟩
    · rw [runExitScan]
      simp only [hr]
      rfl
    · rw [runExitScan]
      simp only [hr]
      rfl

/-- C8: the timestamp resolver works through the deduplicated block numbers
in batches of at most 10 (issued per batch, each batch completed before the
next starts, the modelled observable of `Promise.all` per slice), and a
single failed lookup is fatal: the run yields an error — no snapshot — and
the process exit code is 1. -/
theorem resolver_failure_fatal
    (query : Nat → Nat → Except String (List InitiatedEvent × List FinalizedEvent))
    (getBlock : Nat → Except String EthBlock) (now f t bn : Nat)
    (hmem : bn ∈ dedupFirst ((fetchExitEvents query f t).1.map
      InitiatedEvent.ethBlockNumber))
    (hfail : (getBlock bn).isOk = false) :
    (runExitScan query getBlock now f t).isOk = false ∧
    exitCode (runExitScan query getBlock now f t) = 1 ∧
    (∀ s : ExitSnapshot, runExitScan query getBlock now f t ≠ .ok s) ∧
    (batchesOf (dedupFirst ((fetchExitEvents query f t).1.map
        InitiatedEvent.ethBlockNumber))).flatten
      = dedupFirst ((fetchExitEvents query f t).1.map InitiatedEvent.ethBlockNumber) ∧
    (∀ b ∈ batchesOf (dedupFirst ((fetchExitEvents query f t).1.map
        InitiatedEvent.ethBlockNumber)), b.length ≤ 10 ∧ b ≠ []) ∧
    resolveBatches getBlock (dedupFirst ((fetchExitEvents query f t).1.map
        InitiatedEvent.ethBlockNumber))
      = resolveBatchList getBlock (batchesOf (dedupFirst
          ((fetchExitEvents query f t).1.map InitiatedEvent.ethBlockNumber))) := by
  set ub := dedupFirst ((fetchExitEvents query f t).1.map InitiatedEvent.ethBlockNumber)
    with hub
  have hnotok : ¬((resolveBatches getBlock ub).isOk = true) := by
    intro hok
    have h1 := (resolveBatches_isOk_iff getBlock ub).mp hok bn hmem
    rw [hfail] at h1
    exact Bool.false_ne_true h1
  rcases hr : resolveBatches getBlock ub with e | blocks
  · refine ⟨?_, ?_, ?_, batchesOf_flatten ub, batchesOf_size ub, ?_⟩
    · rw [runExitScan]
      simp only [← hub, hr]
      rfl
    · rw [runExitScan]
      simp only [← hub, hr]
      rfl
    · intro s hc
      rw [runExitScan] at hc
      simp only [← hub, hr] at hc
      exact Except.noConfusion hc
    · rw [← hr]
      exact resolveBatches_eq_batchList getBlock ub
  · rw [hr] at hnotok
    exact absurd rfl hnotok

/-! ## Concrete witnesses -/

def wPe : ProofEvent := { l2BlockNumber := 5, proverId := "0xa", txHash := "0xt1", ethBlockNumber := 100 }

def wPr : ProverRecord :=
  { address := "0xa", proofCount := 1,
    blocks := [{ blockNumber := 5, txHash := "0xt1", ethBlockNumber := 100 }] }

def wSe : SlashEvent := { attester := "0xa", amount := 10, txHash := "0xt2", ethBlockNumber := 101 }

def wSr : AttesterSlashRecord :=
  { address := "0xa", slashCount := 1, totalAmountSlashed := 10,
    slashes := [{ amount := 10, txHash := "0xt2", ethBlockNumber := 101 }] }

def wIe : InitiatedEvent :=
  { attester := "0xa", recipient := "0xr", amount := 500, txHash := "0xt3", ethBlockNumber := 102 }

def wEr : AttesterExitRecord :=
  { address := "0xa", initiatedCount := 1, finalizedCount := 0,
    totalInitiatedAmount := 500, totalFinalizedAmount := 0,
    initiated := [{ recipient := "0xr", amount := 500, txHash := "0xt3",
                    ethBlockNumber := 102, timestamp := 1000,
                    exitableAt := 1210600, canFinalize := false }],
    finalized := [] }

theorem record_detail_lengths_witness :
    (wPr ∈ (processProofEvents [wPe]).proverStats ∧
     wSr ∈ (processSlashEvents [wSe]).attesterStats ∧
     wEr ∈ exitStats (fun _ => 1000) 0 [wIe] []) ∧
    (wPr.proofCount = wPr.blocks.length ∧
     wSr.slashCount = wSr.slashes.length ∧
     wEr.initiatedCount = wEr.initiated.length ∧
     wEr.finalizedCount = wEr.finalized.length) :=
  ⟨⟨by decide, by decide, by decide⟩,
   record_detail_lengths [wPe] wPr (by decide) [wSe] wSr (by decide)
     (fun _ => 1000) 0 [wIe] [] wEr (by decide)⟩

def wSevs : List SlashEvent :=
  [{ attester := "0xa", amount := 340282366920938463463374607431768211456,
     txHash := "0xt4", ethBlockNumber := 103 },
   { attester := "0xa", amount := 1, txHash := "0xt5", ethBlockNumber := 104 }]

def wSr5 : AttesterSlashRecord :=
  { address := "0xa", slashCount := 2,
    totalAmountSlashed := 340282366920938463463374607431768211457,
    slashes := [{ amount := 340282366920938463463374607431768211456,
                  txHash := "0xt4", ethBlockNumber := 103 },
                { amount := 1, txHash := "0xt5", ethBlockNumber := 104 }] }

theorem slash_amount_sums_witness :
    (wSr5 ∈ (processSlashEvents wSevs).attesterStats) ∧
    ((processSlashEvents wSevs).totalAmountSlashed = (wSevs.map SlashEvent.amount).sum ∧
     wSr5.totalAmountSlashed
       = ((wSevs.filter fun e => e.attester == wSr5.address).map SlashEvent.amount).sum) :=
  ⟨by decide, slash_amount_sums wSevs wSr5 (by decide)⟩

def c2e : InitiatedEvent :=
  { attester := "0xa", recipient := "0xr", amount := 500, txHash := "0xt6", ethBlockNumber := 7 }

def c2er : AttesterExitRecord :=
  { address := "0xa", initiatedCount := 1, finalizedCount := 0,
    totalInitiatedAmount := 500, totalFinalizedAmount := 0,
    initiated := [{ recipient := "0xr", amount := 500, txHash := "0xt6",
                    ethBlockNumber := 7, timestamp := 1000000,
                    exitableAt := 2209600, canFinalize := true }],
    finalized := [] }

def c2ir : InitiatedRecord :=
  { recipient := "0xr", amount := 500, txHash := "0xt6", ethBlockNumber := 7,
    timestamp := 1000000, exitableAt := 2209600, canFinalize := true }

theorem exit_maturation_correct_witness :
    (c2er ∈ exitStats (fun _ => 1000000) 2209600 [c2e] [] ∧ c2ir ∈ c2er.initiated) ∧
    (EXIT_DELAY_SECONDS = 1209600 ∧
     (mkInitiatedRecord (fun _ => 1000000) 2209600 c2e).timestamp
       = (fun _ : Nat => 1000000) c2e.ethBlockNumber ∧
     (mkInitiatedRecord (fun _ => 1000000) 2209600 c2e).exitableAt
       = (fun _ : Nat => 1000000) c2e.ethBlockNumber + 1209600 ∧
     ((mkInitiatedRecord (fun _ => 1000000) 2209600 c2e).canFinalize = true
       ↔ 2209600 ≥ (fun _ : Nat => 1000000) c2e.ethBlockNumber + 1209600) ∧
     c2ir.exitableAt = c2ir.timestamp + 1209600 ∧
     (c2ir.canFinalize = true ↔ 2209600 ≥ c2ir.exitableAt)) :=
  ⟨⟨by decide, by decide⟩,
   exit_maturation_correct (fun _ => 1000000) 2209600 c2e [c2e] [] c2er
     (by decide) c2ir (by decide)⟩

def c1i1 : InitiatedEvent :=
  { attester := "0xa", recipient := "0xr", amount := 1, txHash := "0xt7", ethBlockNumber := 11 }

def c1i2 : InitiatedEvent :=
  { attester := "0xa", recipient := "0xr", amount := 2, txHash := "0xt8", ethBlockNumber := 12 }

def c1f1 : FinalizedEvent :=
  { attester := "0xa", recipient := "0xr", amount := 1, txHash := "0xt9", ethBlockNumber := 13 }

def c1er : AttesterExitRecord :=
  { address := "0xa", initiatedCount := 2, finalizedCount := 1,
    totalInitiatedAmount := 3, totalFinalizedAmount := 1,
    initiated := [{ recipient := "0xr", amount := 1, txHash := "0xt7",
                    ethBlockNumber := 11, timestamp := 0,
                    exitableAt := 1209600, canFinalize := false },
                  { recipient := "0xr", amount := 2, txHash := "0xt8",
                    ethBlockNumber := 12, timestamp := 0,
                    exitableAt := 1209600, canFinalize := false }],
    finalized := [{ recipient := "0xr", amount := 1, txHash := "0xt9",
                    ethBlockNumber := 13 }] }

theorem pending_exit_attribution_witness :
    (c1er ∈ exitStats (fun _ => 0) 0 [c1i1, c1i2] [c1f1]) ∧
    (0 : Int) < (c1er.initiatedCount : Int) - (c1er.finalizedCount : Int) ∧
    ((exitSummaryState (exitStats (fun _ => 0) 0 [c1i1, c1i2] [c1f1])).pendingExits.filter
        (fun p => p.attester == c1er.address))
      = ((lastN ((c1er.initiatedCount : Int) - (c1er.finalizedCount : Int)).toNat
          c1er.initiated).map fun ex => { attester := c1er.address, exit := ex }) ∧
    ((((exitSummaryState (exitStats (fun _ => 0) 0 [c1i1, c1i2] [c1f1])).pendingExits.filter
        (fun p => p.attester == c1er.address)).length : Int)
      = max 0 ((c1er.initiatedCount : Int) - (c1er.finalizedCount : Int))) :=
  ⟨by decide, by decide,
   (pending_exit_attribution (fun _ => 0) 0 [c1i1, c1i2] [c1f1] c1er (by decide)).1
     (by decide),
   (pending_exit_attribution (fun _ => 0) 0 [c1i1, c1i2] [c1f1] c1er (by decide)).2⟩

theorem chunkWindows_zero : chunkWindows 0 0 = [(0, 0)] := by
  have h1 : chunkWindows (0 + CHUNK_SIZE) 0 = [] := by
    rw [chunkWindows]
    simp [CHUNK_SIZE]
  rw [chunkWindows, if_pos (Nat.le_refl 0), h1]
  simp [CHUNK_SIZE]

def q7 : Nat → Nat → Except String (List InitiatedEvent × List FinalizedEvent) :=
  fun _ _ => .error "window down"

def g7 : Nat → Except String EthBlock := fun bn => .ok { number := bn, timestamp := 0 }

theorem window_failure_tolerated_witness :
    ((resolveBatches g7 (dedupFirst ((fetchExitEvents q7 0 0).1.map
        InitiatedEvent.ethBlockNumber))).isOk = true) ∧
    ((runExitScan q7 g7 5 0 0).isOk = true ∧
     exitCode (runExitScan q7 g7 5 0 0) = 0 ∧
     fetchExitEvents (overrideWindow q7 (0, 0) (.error "boom")) 0 0
       = fetchExitEvents (overrideWindow q7 (0, 0) (.ok ([], []))) 0 0 ∧
     runExitScan (overrideWindow q7 (0, 0) (.error "boom")) g7 5 0 0
       = runExitScan (overrideWindow q7 (0, 0) (.ok ([], []))) g7 5 0 0) := by
  have hfetch : fetchExitEvents q7 0 0 = ([], []) := by
    rw [fetchExitEvents, chunkWindows_zero]
    rfl
  have hres : (resolveBatches g7 (dedupFirst ((fetchExitEvents q7 0 0).1.map
      InitiatedEvent.ethBlockNumber))).isOk = true := by
    rw [hfetch]
    show (resolveBatches g7 (dedupFirst [])).isOk = true
    rw [dedupFirst, resolveBatches]
    rfl
  exact ⟨hres, window_failure_tolerated q7 g7 5 0 0 (0, 0) "boom" hres⟩

def q8 : Nat → Nat → Except String (List InitiatedEvent × List FinalizedEvent) :=
  fun _ _ => .ok ([{ attester := "0xa", recipient := "0xr", amount := 500,
                     txHash := "0xta", ethBlockNumber := 7 }], [])

def g8 : Nat → Except String EthBlock := fun _ => .error "lookup failed"

theorem resolver_failure_fatal_witness :
    (7 ∈ dedupFirst ((fetchExitEvents q8 0 0).1.map InitiatedEvent.ethBlockNumber)) ∧
    ((g8 7).isOk = false) ∧
    ((runExitScan q8 g8 5 0 0).isOk = false ∧
     exitCode (runExitScan q8 g8 5 0 0) = 1 ∧
     (∀ s : ExitSnapshot, runExitScan q8 g8 5 0 0 ≠ .ok s) ∧
     (batchesOf (dedupFirst ((fetchExitEvents q8 0 0).1.map
         InitiatedEvent.ethBlockNumber))).flatten
       = dedupFirst ((fetchExitEvents q8 0 0).1.map InitiatedEvent.ethBlockNumber) ∧
     (∀ b ∈ batchesOf (dedupFirst ((fetchExitEvents q8 0 0).1.map
         InitiatedEvent.ethBlockNumber)), b.length ≤ 10 ∧ b ≠ []) ∧
     resolveBatches g8 (dedupFirst ((fetchExitEvents q8 0 0).1.map
         InitiatedEvent.ethBlockNumber))
       = resolveBatchList g8 (batchesOf (dedupFirst
           ((fetchExitEvents q8 0 0).1.map InitiatedEvent.ethBlockNumber)))) := by
  have hfetch : (fetchExitEvents q8 0 0).1.map InitiatedEvent.ethBlockNumber = [7] := by
    rw [fetchExitEvents, chunkWindows_zero]
    rfl
  have hded : dedupFirst ((fetchExitEvents q8 0 0).1.map InitiatedEvent.ethBlockNumber)
      = [7] := by
    rw [hfetch, dedupFirst]
    show 7 :: dedupFirst [] = [7]
    rw [dedupFirst]
  have hmem : 7 ∈ dedupFirst ((fetchExitEvents q8 0 0).1.map
      InitiatedEvent.ethBlockNumber) := by
    rw [hded]
    exact List.mem_singleton.mpr rfl
  exact ⟨hmem, rfl, resolver_failure_fatal q8 g8 5 0 0 7 hmem rfl⟩

end AztecStats
